import Mathlib

/-!
Shallow embedding of `event_bus/bus.py` (class `EventBus`).

A subscriber is a callable with an object identity (`id`), a declared
display name (`name`, Python `__name__`) and a behaviour `call` that
either returns a value or raises (`Except.error`).  The bus state is the
`defaultdict(set)` field `_events`, modelled as an insertion-ordered
association list from event names to subscriber lists; a subscriber list
plays the role of a Python `set` of function objects: membership and
removal are by identity (`id`), and the list order stands for the
(unspecified) iteration order of the set.  Emission is modelled as a
function returning the new bus state, the trace of performed calls
(which callable, with which positional and named arguments) and the
exception, if any, that propagated to the caller.
-/

/-- Positional arguments (`*args`). -/
abbrev Args := List Int

/-- Named arguments (`**kwargs`). -/
abbrev Kwargs := List (String × Int)

/-- A Python callable: object identity, `__name__`, and behaviour. -/
structure Subscriber where
  id : Nat
  name : String
  call : Args → Kwargs → Except String Int

/-- A record of one performed invocation: who was called, with what. -/
structure CallRec where
  fid : Nat
  args : Args
  kwargs : Kwargs
deriving DecidableEq

/-- The `EventBus` state: the `_events` mapping. -/
structure EventBus where
  events : List (String × List Subscriber)

/-- Dictionary lookup on the underlying association list. -/
def lookup : List (String × List Subscriber) → String → Option (List Subscriber)
  | [], _ => none
  | p :: rest, e => if p.1 = e then some p.2 else lookup rest e

/-- Dictionary assignment `d[e] = fs`: replaces the value at an existing
key in place, or appends a new entry (Python dict insertion order). -/
def setKey : List (String × List Subscriber) → String → List Subscriber →
    List (String × List Subscriber)
  | [], e, fs => [(e, fs)]
  | p :: rest, e, fs => if p.1 = e then (e, fs) :: rest else p :: setKey rest e fs

/-- `defaultdict.__getitem__` side effect: first read access to an
unseen key inserts an empty set for it. -/
def vivify (b : EventBus) (e : String) : EventBus :=
  match lookup b.events e with
  | some _ => b
  | none => EventBus.mk (b.events ++ [(e, [])])

/-- The subscriber set currently stored for `e` (empty if unseen). -/
def getFuncs (b : EventBus) (e : String) : List Subscriber :=
  (lookup b.events e).getD []

/-- `set.add`: a no-op when an element of the same identity is present. -/
def setAdd (fs : List Subscriber) (f : Subscriber) : List Subscriber :=
  if fs.any (fun g => g.id == f.id) then fs else fs ++ [f]

/-- `set.remove` of the function object with identity `fid`. -/
def setRemove (fs : List Subscriber) (fid : Nat) : List Subscriber :=
  fs.filter (fun g => !(g.id == fid))

/-- `EventBus.on(event)` applied to `func`: runs
`self._events[event].add(func)` and returns the `@wraps(func)` wrapper,
a fresh callable (identity `wid`) carrying the name of `func` and forwarding
every call to `func`. -/
def on_apply (b : EventBus) (e : String) (f : Subscriber) (wid : Nat) :
    EventBus × Subscriber :=
  let b1 := vivify b e
  (EventBus.mk (setKey b1.events e (setAdd (getFuncs b1 e) f)),
   Subscriber.mk wid f.name f.call)

/-- `EventBus.event_funcs(name)`: the generator over
`self._events[name]`, as its observable effect once iterated — the
auto-vivified bus together with the yielded subscribers. -/
def event_funcs (b : EventBus) (e : String) : EventBus × List Subscriber :=
  (vivify b e, getFuncs (vivify b e) e)

/-- `EventBus.event_func_names(name)`: `__name__` of each subscriber. -/
def event_func_names (b : EventBus) (e : String) : EventBus × List String :=
  (vivify b e, (getFuncs (vivify b e) e).map (fun f => f.name))

/-- The `for func in ...: func(*args, **kwargs)` loop of `emit`: calls
each subscriber in order; a raised exception aborts the loop and
propagates (second component `some err`). -/
def runAll : List Subscriber → Args → Kwargs → List CallRec × Option String
  | [], _, _ => ([], none)
  | f :: rest, a, k =>
    match f.call a k with
    | Except.ok _ =>
        let r := runAll rest a k
        (CallRec.mk f.id a k :: r.1, r.2)
    | Except.error err => ([CallRec.mk f.id a k], some err)

/-- `EventBus.emit(event, *args, **kwargs)`. It returns `None`; the
extra components of the model are the call trace and the propagated
exception, if any. -/
def emit (b : EventBus) (e : String) (a : Args) (k : Kwargs) :
    EventBus × List CallRec × Option String :=
  let p := event_funcs b e
  (p.1, runAll p.2 a k)

/-- The `Union[str, List[str]]` argument of `emit_only`. -/
inductive FuncNames where
  | one (s : String)
  | many (l : List String)

/-- `if isinstance(func_names, str): func_names = [func_names]`. -/
def normNames : FuncNames → List String
  | FuncNames.one s => [s]
  | FuncNames.many l => l

/-- The loop of `emit_only`: calls only subscribers whose `__name__` is
in `ns`; an exception aborts the rest of the loop. -/
def runOnly : List Subscriber → List String → Args → Kwargs →
    List CallRec × Option String
  | [], _, _, _ => ([], none)
  | f :: rest, ns, a, k =>
    if ns.contains f.name then
      match f.call a k with
      | Except.ok _ =>
          let r := runOnly rest ns a k
          (CallRec.mk f.id a k :: r.1, r.2)
      | Except.error err => ([CallRec.mk f.id a k], some err)
    else runOnly rest ns a k

/-- `EventBus.emit_only(event, func_names, *args, **kwargs)`. -/
def emit_only (b : EventBus) (e : String) (ns : FuncNames) (a : Args) (k : Kwargs) :
    EventBus × List CallRec × Option String :=
  let p := event_funcs b e
  (p.1, runOnly p.2 (normNames ns) a k)

/-- `EventBus.emit_after(event)` applied to `func`, then called with
`(*args, **kwargs)`: runs `returned = func(*args, **kwargs)`, then
`self.emit(event)` (no arguments), then returns `returned`.  If `func`
raises, the emit is never reached; if a subscriber raises, that
exception propagates instead of the return value. -/
def emit_after_call (b : EventBus) (e : String) (g : Subscriber)
    (a : Args) (k : Kwargs) : EventBus × List CallRec × Except String Int :=
  match g.call a k with
  | Except.error err => (b, [CallRec.mk g.id a k], Except.error err)
  | Except.ok v =>
      let r := emit b e [] []
      match r.2.2 with
      | some err => (r.1, CallRec.mk g.id a k :: r.2.1, Except.error err)
      | none => (r.1, CallRec.mk g.id a k :: r.2.1, Except.ok v)

/-- The loop of `remove_subscriber`: iterates the stored set `orig` and
removes every name-matching function object from the copy `acc`. -/
def removeLoop (n : String) : List Subscriber → List Subscriber → List Subscriber
  | [], acc => acc
  | f :: rest, acc =>
      removeLoop n rest (if f.name == n then setRemove acc f.id else acc)

/-- `EventBus.remove_subscriber(event, func_name)`: copies the set
(vivifying the entry), removes every subscriber named `func_name` from
the copy, and stores the copy back. -/
def remove_subscriber (b : EventBus) (e : String) (n : String) : EventBus :=
  let b1 := vivify b e
  let orig := getFuncs b1 e
  EventBus.mk (setKey b1.events e (removeLoop n orig orig))

/-- `Counter` assignment `c[key] = v`. -/
def counterAssign (c : List (String × Nat)) (key : String) (v : Nat) :
    List (String × Nat) :=
  if c.any (fun p => p.1 == key) then
    c.map (fun p => if p.1 == key then (key, v) else p)
  else c ++ [(key, v)]

/-- The loop of `subscribed_event_count`: `event_counter[key] = len(values)`
for each entry of `_events`. -/
def countLoop : List (String × List Subscriber) → List (String × Nat) →
    List (String × Nat)
  | [], c => c
  | p :: rest, c => countLoop rest (counterAssign c p.1 p.2.length)

/-- `EventBus.subscribed_event_count()`: builds the counter, then
`sum(event_counter.values())`. -/
def subscribed_event_count (b : EventBus) : Nat :=
  ((countLoop b.events []).map (fun p => p.2)).sum

/-- Well-formedness of a reachable bus state: dictionary keys are
distinct, and each stored set holds at most one subscriber per
identity. -/
def WF (b : EventBus) : Prop :=
  (b.events.map Prod.fst).Nodup ∧
  ∀ p ∈ b.events, (p.2.map Subscriber.id).Nodup

/-! ### Dictionary lemmas -/

theorem lookup_setKey_self (l : List (String × List Subscriber)) (e : String)
    (fs : List Subscriber) : lookup (setKey l e fs) e = some fs := by
  induction l with
  | nil => simp [setKey, lookup]
  | cons p rest ih =>
      by_cases h : p.1 = e
      · simp [setKey, h, lookup]
      · simp [setKey, h, lookup, ih]

theorem lookup_setKey_ne (l : List (String × List Subscriber)) (e e' : String)
    (fs : List Subscriber) (h : e' ≠ e) :
    lookup (setKey l e fs) e' = lookup l e' := by
  induction l with
  | nil => simp [setKey, lookup, Ne.symm h]
  | cons p rest ih =>
      by_cases hp : p.1 = e
      · subst hp
        simp [setKey, lookup, Ne.symm h]
      · simp [setKey, hp, lookup, ih]

theorem lookup_none_not_mem (l : List (String × List Subscriber)) (e : String)
    (h : lookup l e = none) : e ∉ l.map Prod.fst := by
  induction l with
  | nil => simp
  | cons p rest ih =>
      by_cases hp : p.1 = e
      · simp [lookup, hp] at h
      · simp [lookup, hp] at h
        simp [hp, ih h]
        exact fun hc => hp hc.symm

theorem lookup_mem (l : List (String × List Subscriber)) (e : String)
    (fs : List Subscriber) (h : lookup l e = some fs) : (e, fs) ∈ l := by
  induction l with
  | nil => simp [lookup] at h
  | cons p rest ih =>
      by_cases hp : p.1 = e
      · simp [lookup, hp] at h
        subst hp
        rw [← h]
        simp
      · simp [lookup, hp] at h
        right
        exact ih h

theorem lookup_append_missing (l : List (String × List Subscriber)) (e : String)
    (fs : List Subscriber) (h : lookup l e = none) :
    lookup (l ++ [(e, fs)]) e = some fs := by
  induction l with
  | nil => simp [lookup]
  | cons p rest ih =>
      by_cases hp : p.1 = e
      · simp [lookup, hp] at h
      · simp [lookup, hp] at h ⊢
        exact ih h

theorem lookup_append_ne (l : List (String × List Subscriber)) (e e' : String)
    (fs : List Subscriber) (h : e' ≠ e) :
    lookup (l ++ [(e, fs)]) e' = lookup l e' := by
  induction l with
  | nil => simp [lookup, Ne.symm h]
  | cons p rest ih =>
      by_cases hp : p.1 = e'
      · simp [lookup, hp]
      · simp [lookup, hp, ih]

theorem lookup_vivify_self (b : EventBus) (e : String) :
    lookup (vivify b e).events e = some (getFuncs b e) := by
  unfold vivify getFuncs
  cases h : lookup b.events e with
  | none => simpa [h] using lookup_append_missing b.events e [] h
  | some fs => simp [h]

theorem lookup_vivify_ne (b : EventBus) (e e' : String) (h : e' ≠ e) :
    lookup (vivify b e).events e' = lookup b.events e' := by
  unfold vivify
  cases hl : lookup b.events e with
  | none => simpa using lookup_append_ne b.events e e' [] h
  | some fs => rfl

theorem getFuncs_vivify_self (b : EventBus) (e : String) :
    getFuncs (vivify b e) e = getFuncs b e := by
  unfold getFuncs
  rw [lookup_vivify_self]
  rfl

/-! ### Well-formedness lemmas -/

theorem mem_setKey (l : List (String × List Subscriber)) (e : String)
    (fs : List Subscriber) (p : String × List Subscriber)
    (h : p ∈ setKey l e fs) : p ∈ l ∨ p = (e, fs) := by
  induction l with
  | nil =>
      simp [setKey] at h
      right
      exact h
  | cons q rest ih =>
      by_cases hq : q.1 = e
      · simp [setKey, hq] at h
        rcases h with h | h
        · right
          exact h
        · left
          simp [h]
      · simp [setKey, hq] at h
        rcases h with h | h
        · left
          simp [h]
        · rcases ih h with h2 | h2
          · left
            simp [h2]
          · right
            exact h2

theorem keys_setKey_sub (l : List (String × List Subscriber)) (e : String)
    (fs : List Subscriber) (x : String) (h : x ∈ (setKey l e fs).map Prod.fst) :
    x ∈ l.map Prod.fst ∨ x = e := by
  simp at h
  rcases h with ⟨b2, hb⟩
  rcases mem_setKey l e fs (x, b2) hb with h2 | h2
  · left
    simp
    exact ⟨b2, h2⟩
  · right
    exact congrArg Prod.fst h2

theorem nodupKeys_setKey (l : List (String × List Subscriber)) (e : String)
    (fs : List Subscriber) (h : (l.map Prod.fst).Nodup) :
    ((setKey l e fs).map Prod.fst).Nodup := by
  induction l with
  | nil => simp [setKey]
  | cons q rest ih =>
      rw [List.map_cons, List.nodup_cons] at h
      by_cases hq : q.1 = e
      · subst hq
        have hstep : setKey (q :: rest) q.1 fs = (q.1, fs) :: rest := by
          simp [setKey]
        rw [hstep, List.map_cons, List.nodup_cons]
        exact ⟨h.1, h.2⟩
      · have hnotin : q.1 ∉ (setKey rest e fs).map Prod.fst := by
          intro hmem
          rcases keys_setKey_sub rest e fs q.1 hmem with h2 | h2
          · exact h.1 h2
          · exact hq h2
        have hstep : setKey (q :: rest) e fs = q :: setKey rest e fs := by
          simp [setKey, hq]
        rw [hstep, List.map_cons, List.nodup_cons]
        exact ⟨hnotin, ih h.2⟩

theorem setKey_self_eq (l : List (String × List Subscriber)) (e : String)
    (fs : List Subscriber) (hnd : (l.map Prod.fst).Nodup)
    (h : lookup l e = some fs) : setKey l e fs = l := by
  induction l with
  | nil => simp [lookup] at h
  | cons q rest ih =>
      simp at hnd
      by_cases hq : q.1 = e
      · simp [lookup, hq] at h
        subst hq
        simp [setKey, ← h]
      · simp [lookup, hq] at h
        simp [setKey, hq, ih hnd.2 h]

theorem WF_vivify (b : EventBus) (e : String) (h : WF b) : WF (vivify b e) := by
  unfold vivify
  cases hl : lookup b.events e with
  | some fs => exact h
  | none =>
      constructor
      · have hmap : (b.events ++ [(e, [])]).map Prod.fst =
            b.events.map Prod.fst ++ [e] := by simp
        rw [hmap, List.nodup_append]
        refine ⟨h.1, by simp, ?_⟩
        intro x hx hx2
        rw [List.mem_singleton] at hx2
        rw [hx2] at hx
        exact lookup_none_not_mem b.events e hl hx
      · intro p hp
        simp at hp
        rcases hp with hp | hp
        · exact h.2 p hp
        · simp [hp]

theorem WF_setKey (b : EventBus) (e : String) (fs : List Subscriber)
    (h : WF b) (hfs : (fs.map Subscriber.id).Nodup) :
    WF (EventBus.mk (setKey b.events e fs)) := by
  constructor
  · exact nodupKeys_setKey b.events e fs h.1
  · intro p hp
    rcases mem_setKey b.events e fs p hp with h2 | h2
    · exact h.2 p h2
    · rw [h2]
      exact hfs

theorem getFuncs_nodup (b : EventBus) (e : String) (h : WF b) :
    ((getFuncs b e).map Subscriber.id).Nodup := by
  unfold getFuncs
  cases hl : lookup b.events e with
  | none => simp
  | some fs =>
      simpa using h.2 (e, fs) (lookup_mem b.events e fs hl)

/-! ### Emission loop lemmas -/

theorem runAll_ok (fs : List Subscriber) (a : Args) (k : Kwargs)
    (h : ∀ f ∈ fs, ∃ v, f.call a k = Except.ok v) :
    runAll fs a k = (fs.map (fun f => CallRec.mk f.id a k), none) := by
  induction fs with
  | nil => rfl
  | cons f rest ih =>
      rcases h f (by simp) with ⟨v, hv⟩
      have hrest := ih (fun g hg => h g (by simp [hg]))
      simp [runAll, hv, hrest]

theorem runAll_err (a : Args) (k : Kwargs) (pre post : List Subscriber)
    (f : Subscriber) (err : String)
    (hpre : ∀ g ∈ pre, ∃ v, g.call a k = Except.ok v)
    (hf : f.call a k = Except.error err) :
    runAll (pre ++ f :: post) a k =
      (pre.map (fun g => CallRec.mk g.id a k) ++ [CallRec.mk f.id a k], some err) := by
  induction pre with
  | nil => simp [runAll, hf]
  | cons g rest ih =>
      rcases hpre g (by simp) with ⟨v, hv⟩
      have hrest := ih (fun g2 hg => hpre g2 (by simp [hg]))
      simp [runAll, hv, hrest]

theorem runAll_fid (fs : List Subscriber) (a : Args) (k : Kwargs)
    (r : CallRec) (h : r ∈ (runAll fs a k).1) :
    ∃ f ∈ fs, r.fid = f.id := by
  induction fs with
  | nil => simp [runAll] at h
  | cons f rest ih =>
      cases hc : f.call a k with
      | ok v =>
          simp [runAll, hc] at h
          rcases h with h | h
          · exact ⟨f, by simp, by rw [h]⟩
          · rcases ih h with ⟨g, hg, hid⟩
            exact ⟨g, by simp [hg], hid⟩
      | error err =>
          simp [runAll, hc] at h
          exact ⟨f, by simp, by rw [h]⟩

theorem runOnly_ok (fs : List Subscriber) (ns : List String) (a : Args) (k : Kwargs)
    (h : ∀ f ∈ fs, ns.contains f.name = true → ∃ v, f.call a k = Except.ok v) :
    runOnly fs ns a k =
      ((fs.filter (fun f => ns.contains f.name)).map (fun f => CallRec.mk f.id a k),
       none) := by
  induction fs with
  | nil => rfl
  | cons f rest ih =>
      have hrest := ih (fun g hg hn => h g (by simp [hg]) hn)
      by_cases hn : ns.contains f.name = true
      · rcases h f (by simp) hn with ⟨v, hv⟩
        have hn2 : f.name ∈ ns := by simpa using hn
        simp [runOnly, hn2, hv, List.filter_cons, hrest]
      · have hn2 : f.name ∉ ns := by simpa using hn
        simp [runOnly, hn2, List.filter_cons, hrest]

/-! ### Removal loop lemmas -/

theorem removeLoop_eq_filter (n : String) (l acc : List Subscriber) :
    removeLoop n l acc =
      acc.filter (fun g => !(l.any (fun f => f.name == n && g.id == f.id))) := by
  induction l generalizing acc with
  | nil => simp [removeLoop]
  | cons f rest ih =>
      by_cases hf : (f.name == n) = true
      · have hstep : removeLoop n (f :: rest) acc =
            removeLoop n rest (setRemove acc f.id) := by
          simp [removeLoop, hf]
        rw [hstep, ih, setRemove, List.filter_filter]
        refine List.filter_congr ?_
        intro g hg
        cases h1 : rest.any (fun f2 => f2.name == n && g.id == f2.id) <;>
          cases h2 : g.id == f.id <;> simp [hf, h1, h2]
      · have hstep : removeLoop n (f :: rest) acc = removeLoop n rest acc := by
          simp [removeLoop, hf]
        rw [hstep, ih]
        refine List.filter_congr ?_
        intro g hg
        cases h1 : rest.any (fun f2 => f2.name == n && g.id == f2.id) <;>
          simp [hf, h1]

theorem removeLoop_self_eq_filter (n : String) (orig : List Subscriber)
    (hnd : (orig.map Subscriber.id).Nodup) :
    removeLoop n orig orig = orig.filter (fun g => !(g.name == n)) := by
  rw [removeLoop_eq_filter]
  refine List.filter_congr ?_
  intro g hg
  cases hb : (g.name == n) <;> cases hany : orig.any (fun f => f.name == n && g.id == f.id)
  · rfl
  · exfalso
    rw [List.any_eq_true] at hany
    rcases hany with ⟨f, hf, hpf⟩
    rw [Bool.and_eq_true, beq_iff_eq, beq_iff_eq] at hpf
    have : f = g := List.inj_on_of_nodup_map hnd hf hg hpf.2.symm
    rw [this] at hpf
    rw [hpf.1] at hb
    simp at hb
  · exfalso
    rw [List.any_eq_false] at hany
    refine hany g hg ?_
    rw [Bool.and_eq_true, beq_iff_eq, beq_iff_eq]
    exact ⟨by simpa using hb, rfl⟩
  · rfl

/-! ### Counter lemmas -/

theorem counterAssign_fresh (c : List (String × Nat)) (key : String) (v : Nat)
    (h : ∀ p ∈ c, p.1 ≠ key) : counterAssign c key v = c ++ [(key, v)] := by
  unfold counterAssign
  have hany : c.any (fun p => p.1 == key) = false := by
    rw [List.any_eq_false]
    intro p hp
    simpa using h p hp
  simp [hany]

theorem countLoop_fresh (l : List (String × List Subscriber))
    (c : List (String × Nat))
    (hd : ∀ p ∈ l, ∀ q ∈ c, q.1 ≠ p.1)
    (hnd : (l.map Prod.fst).Nodup) :
    countLoop l c = c ++ l.map (fun p => (p.1, p.2.length)) := by
  induction l generalizing c with
  | nil => simp [countLoop]
  | cons p rest ih =>
      rw [List.map_cons, List.nodup_cons] at hnd
      rw [countLoop, counterAssign_fresh c p.1 p.2.length
        (fun q hq => hd p (by simp) q hq)]
      rw [ih (c ++ [(p.1, p.2.length)]) ?_ hnd.2]
      · simp
      · intro p2 hp2 q hq
        rcases List.mem_append.mp hq with hq | hq
        · exact hd p2 (by simp [hp2]) q hq
        · rw [List.mem_singleton] at hq
          rw [hq]
          intro hc
          refine hnd.1 ?_
          rw [hc]
          exact List.mem_map_of_mem Prod.fst hp2

theorem subscribed_event_count_eq (b : EventBus)
    (h : (b.events.map Prod.fst).Nodup) :
    subscribed_event_count b = (b.events.map (fun p => p.2.length)).sum := by
  unfold subscribed_event_count
  rw [countLoop_fresh b.events [] (by simp) h]
  simp only [List.nil_append, List.map_map]
  rfl

/-! ### Set-add and counting lemmas -/

theorem filter_id_count_one (fs : List Subscriber) (f : Subscriber)
    (hnd : (fs.map Subscriber.id).Nodup) (hmem : f ∈ fs) :
    (fs.filter (fun g => g.id == f.id)).length = 1 := by
  induction fs with
  | nil => simp at hmem
  | cons g rest ih =>
      rw [List.map_cons, List.nodup_cons] at hnd
      rcases List.mem_cons.mp hmem with heq | hmem2
      · rw [← heq] at hnd ⊢
        have hnil : rest.filter (fun g2 => g2.id == f.id) = [] := by
          rw [List.filter_eq_nil_iff]
          intro a ha
          intro hc
          rw [beq_iff_eq] at hc
          refine hnd.1 ?_
          rw [← hc]
          exact List.mem_map_of_mem Subscriber.id ha
        simp [List.filter_cons, hnil]
      · have hne : (g.id == f.id) = false := by
          rw [beq_eq_false_iff_ne]
          intro hc
          refine hnd.1 ?_
          rw [hc]
          exact List.mem_map_of_mem Subscriber.id hmem2
        simp [List.filter_cons, hne, ih hnd.2 hmem2]

theorem trace_filter_length (fs : List Subscriber) (a : Args) (k : Kwargs) (i : Nat) :
    ((fs.map (fun g => CallRec.mk g.id a k)).filter (fun r => r.fid == i)).length =
      (fs.filter (fun g => g.id == i)).length := by
  induction fs with
  | nil => rfl
  | cons g rest ih =>
      cases hg : (g.id == i) <;> simp [List.filter_cons, hg, ih]

theorem setAdd_mem_id (fs : List Subscriber) (f : Subscriber) :
    (setAdd fs f).any (fun g => g.id == f.id) = true := by
  unfold setAdd
  cases h : fs.any (fun g => g.id == f.id)
  · simp [h]
  · simp [h]

theorem setAdd_idem (fs : List Subscriber) (f : Subscriber) :
    setAdd (setAdd fs f) f = setAdd fs f := by
  show (if (setAdd fs f).any (fun g => g.id == f.id) then setAdd fs f
    else setAdd fs f ++ [f]) = setAdd fs f
  simp [setAdd_mem_id]

theorem setAdd_count_one (fs : List Subscriber) (f : Subscriber)
    (hnd : (fs.map Subscriber.id).Nodup) :
    ((setAdd fs f).filter (fun g => g.id == f.id)).length = 1 := by
  by_cases h : fs.any (fun g => g.id == f.id) = true
  · have h2 := h
    rw [List.any_eq_true] at h2
    rcases h2 with ⟨g, hg, hgid⟩
    rw [beq_iff_eq] at hgid
    have hcount := filter_id_count_one fs g hnd hg
    rw [hgid] at hcount
    simpa [setAdd, h] using hcount
  · have h3 : fs.any (fun g => g.id == f.id) = false := by simpa using h
    have h0 : fs.filter (fun g => g.id == f.id) = [] := by
      rw [List.filter_eq_nil_iff]
      rw [List.any_eq_false] at h3
      exact h3
    simp [setAdd, h3, List.filter_append, h0, List.filter_cons]

theorem setAdd_nodup (fs : List Subscriber) (f : Subscriber)
    (hnd : (fs.map Subscriber.id).Nodup) :
    ((setAdd fs f).map Subscriber.id).Nodup := by
  by_cases h : fs.any (fun g => g.id == f.id) = true
  · simpa [setAdd, h] using hnd
  · have h3 : fs.any (fun g => g.id == f.id) = false := by simpa using h
    rw [List.any_eq_false] at h3
    have hstep : setAdd fs f = fs ++ [f] := by simp [setAdd, h]
    rw [hstep, List.map_append, List.nodup_append]
    refine ⟨hnd, by simp, ?_⟩
    intro x hx hx2
    simp only [List.map_cons, List.map_nil, List.mem_singleton] at hx2
    rw [hx2] at hx
    rcases List.mem_map.mp hx with ⟨a, ha, haid⟩
    exact h3 a ha (by simp [haid])

theorem vivify_of_some (b : EventBus) (e : String) (fs : List Subscriber)
    (h : lookup b.events e = some fs) : vivify b e = b := by
  unfold vivify
  rw [h]

/-! ### Concrete sample values (used by the witness theorems) -/

/-- Sample event name. -/
def evX : String := "x"

/-- A second, distinct event name. -/
def evY : String := "y"

/-- Display name of the sample subscriber `subF`. -/
def nameF : String := "f"

/-- Display name of the sample subscriber `subG`. -/
def nameG : String := "g"

/-- Display name of the sample raising subscriber. -/
def nameH : String := "h"

/-- The sample exception message. -/
def boom : String := "boom"

/-- A subscriber named `f` that returns 10. -/
def subF : Subscriber := Subscriber.mk 1 nameF (fun _ _ => Except.ok 10)

/-- A subscriber named `g` that returns 20. -/
def subG : Subscriber := Subscriber.mk 2 nameG (fun _ _ => Except.ok 20)

/-- A subscriber named `h` that raises. -/
def subBad : Subscriber := Subscriber.mk 3 nameH (fun _ _ => Except.error boom)

/-- A bus with two healthy subscribers on event `x`. -/
def busFG : EventBus := EventBus.mk [(evX, [subF, subG])]

/-- A bus whose event `x` has a raising subscriber between two healthy ones. -/
def busFBG : EventBus := EventBus.mk [(evX, [subF, subBad, subG])]

/-- A bus with entries for two distinct events. -/
def busXY : EventBus := EventBus.mk [(evX, [subF]), (evY, [subG])]

/-- A bus with a populated entry and an empty (vivified) entry. -/
def busCnt : EventBus := EventBus.mk [(evX, [subF, subG]), (evY, [])]

/-- The empty bus produced by `EventBus()`. -/
def busEmpty : EventBus := EventBus.mk []

/-- Sample positional arguments. -/
def argsA : Args := [1, 2]

/-- Sample named arguments. -/
def kwA : Kwargs := [(nameG, 3)]

/-! ### Claim theorems -/

/-- Claim C1: for every event name, argument tuple, keyword mapping and
well-formed bus whose subscribers all succeed on those arguments,
`emit` invokes each subscriber registered for the event exactly once,
passing the same positional and named arguments to each; the only state
change is the auto-vivification of the entry, nothing is returned
(no propagated exception), and with no subscribers no call is made while
an empty entry is auto-created. -/
theorem emit_invokes_each_subscriber_once (b : EventBus) (e : String)
    (a : Args) (k : Kwargs) (hWF : WF b)
    (hok : ∀ f ∈ getFuncs b e, ∃ v, f.call a k = Except.ok v) :
    (emit b e a k).1 = vivify b e ∧
    (emit b e a k).2.1 = (getFuncs b e).map (fun f => CallRec.mk f.id a k) ∧
    (emit b e a k).2.2 = none ∧
    (∀ f ∈ getFuncs b e,
      ((emit b e a k).2.1.filter (fun r => r.fid == f.id)).length = 1) ∧
    (lookup b.events e = none →
      (emit b e a k).2.1 = [] ∧ lookup (emit b e a k).1.events e = some []) := by
  have hfs : getFuncs (vivify b e) e = getFuncs b e := getFuncs_vivify_self b e
  have hrun := runAll_ok (getFuncs b e) a k hok
  have htrace : (emit b e a k).2.1 =
      (getFuncs b e).map (fun f => CallRec.mk f.id a k) := by
    show (runAll (getFuncs (vivify b e) e) a k).1 = _
    rw [hfs, hrun]
  refine ⟨rfl, htrace, ?_, ?_, ?_⟩
  · show (runAll (getFuncs (vivify b e) e) a k).2 = none
    rw [hfs, hrun]
  · intro f hf
    rw [htrace, trace_filter_length]
    exact filter_id_count_one (getFuncs b e) f (getFuncs_nodup b e hWF) hf
  · intro hmiss
    have hempty : getFuncs b e = [] := by
      unfold getFuncs
      rw [hmiss]
      rfl
    constructor
    · rw [htrace, hempty]
      rfl
    · show lookup (vivify b e).events e = some []
      rw [lookup_vivify_self, hempty]

/-- Claim C1 witness: on a bus with subscribers `f` and `g` on event
`x`, emitting `x` produces exactly one call per subscriber with the
emitted arguments and no propagated exception. -/
theorem emit_invokes_each_subscriber_once_witness :
    WF busFG ∧
    (emit busFG evX argsA kwA).2.1 =
      (getFuncs busFG evX).map (fun f => CallRec.mk f.id argsA kwA) ∧
    (emit busFG evX argsA kwA).2.2 = none := by
  have hok : ∀ f ∈ getFuncs busFG evX, ∃ v, f.call argsA kwA = Except.ok v := by
    intro f hf
    have hf2 : f = subF ∨ f = subG := by
      simpa [busFG, getFuncs, lookup] using hf
    rcases hf2 with rfl | rfl
    · exact ⟨10, rfl⟩
    · exact ⟨20, rfl⟩
  have hwf : WF busFG := ⟨by decide, by decide⟩
  have h := emit_invokes_each_subscriber_once busFG evX argsA kwA hwf hok
  exact ⟨hwf, h.2.1, h.2.2.1⟩

/-- Claim C2: if the subscribers of an event split as `pre ++ f :: post`
in iteration order, every subscriber of `pre` succeeds and `f` raises,
then `emit` propagates the exception to its caller uncaught and the
performed calls are exactly those of `pre` followed by the call of `f`: no subscriber
after the failing one is invoked. -/
theorem emit_exception_aborts (b : EventBus) (e : String) (a : Args)
    (k : Kwargs) (pre post : List Subscriber) (f : Subscriber) (err : String)
    (hsplit : getFuncs b e = pre ++ f :: post)
    (hpre : ∀ g ∈ pre, ∃ v, g.call a k = Except.ok v)
    (hf : f.call a k = Except.error err) :
    (emit b e a k).2.2 = some err ∧
    (emit b e a k).2.1 =
      pre.map (fun g => CallRec.mk g.id a k) ++ [CallRec.mk f.id a k] := by
  have hfs : getFuncs (vivify b e) e = getFuncs b e := getFuncs_vivify_self b e
  have hrun := runAll_err a k pre post f err hpre hf
  constructor
  · show (runAll (getFuncs (vivify b e) e) a k).2 = some err
    rw [hfs, hsplit, hrun]
  · show (runAll (getFuncs (vivify b e) e) a k).1 = _
    rw [hfs, hsplit, hrun]

/-- Claim C2 witness: with subscribers `f`, then a raising `h`, then `g`
on event `x`, emitting `x` calls `f` and `h` only and propagates the
exception; `g` is never invoked. -/
theorem emit_exception_aborts_witness :
    (emit busFBG evX argsA kwA).2.2 = some boom ∧
    (emit busFBG evX argsA kwA).2.1 =
      [subF].map (fun g => CallRec.mk g.id argsA kwA) ++
        [CallRec.mk subBad.id argsA kwA] := by
  have hpre : ∀ g ∈ [subF], ∃ v, g.call argsA kwA = Except.ok v := by
    intro g hg
    rw [List.mem_singleton] at hg
    rw [hg]
    exact ⟨10, rfl⟩
  exact emit_exception_aborts busFBG evX argsA kwA [subF] [subG] subBad boom
    rfl hpre rfl

/-- Claim C3: `emit_only` invokes exactly those subscribers of the event
whose declared `__name__` belongs to the requested names (assuming those
succeed), passing the same arguments to each, and nothing propagates;
subscribers whose name is not requested are not invoked, and a single
string is first normalized to the one-element list containing it. -/
theorem emit_only_filters_by_name (b : EventBus) (e : String) (ns : FuncNames)
    (a : Args) (k : Kwargs)
    (hok : ∀ f ∈ getFuncs b e, (normNames ns).contains f.name = true →
      ∃ v, f.call a k = Except.ok v) :
    (emit_only b e ns a k).2.1 =
      ((getFuncs b e).filter (fun f => (normNames ns).contains f.name)).map
        (fun f => CallRec.mk f.id a k) ∧
    (emit_only b e ns a k).2.2 = none ∧
    (∀ s, normNames (FuncNames.one s) = [s]) := by
  have hfs : getFuncs (vivify b e) e = getFuncs b e := getFuncs_vivify_self b e
  have hrun := runOnly_ok (getFuncs b e) (normNames ns) a k hok
  refine ⟨?_, ?_, fun s => rfl⟩
  · show (runOnly (getFuncs (vivify b e) e) (normNames ns) a k).1 = _
    rw [hfs, hrun]
  · show (runOnly (getFuncs (vivify b e) e) (normNames ns) a k).2 = none
    rw [hfs, hrun]

/-- Claim C3 witness: `emit_only("x", "f")` on a bus where both `f` and
`g` subscribe to `x` invokes exactly the subscriber named `f`. -/
theorem emit_only_filters_by_name_witness :
    (emit_only busFG evX (FuncNames.one nameF) argsA kwA).2.1 =
      ((getFuncs busFG evX).filter
        (fun f => (normNames (FuncNames.one nameF)).contains f.name)).map
        (fun f => CallRec.mk f.id argsA kwA) ∧
    (emit_only busFG evX (FuncNames.one nameF) argsA kwA).2.2 = none := by
  have hok : ∀ f ∈ getFuncs busFG evX,
      (normNames (FuncNames.one nameF)).contains f.name = true →
      ∃ v, f.call argsA kwA = Except.ok v := by
    intro f hf _
    have hf2 : f = subF ∨ f = subG := by
      simpa [busFG, getFuncs, lookup] using hf
    rcases hf2 with rfl | rfl
    · exact ⟨10, rfl⟩
    · exact ⟨20, rfl⟩
  have h := emit_only_filters_by_name busFG evX (FuncNames.one nameF) argsA kwA hok
  exact ⟨h.1, h.2.1⟩

/-- Claim C4: a function `g` decorated by `emit_after(e)` first executes
`g` with all forwarded arguments and — when `g` succeeds and the subscribers of `e` succeed — then emits `e`
with no arguments to those subscribers and returns the result of `g`
unchanged, in that order; when `g`
raises, its exception propagates, no subscriber is called and the event
entry is not even auto-created. -/
theorem emit_after_runs_then_emits (b : EventBus) (e : String)
    (g : Subscriber) (a : Args) (k : Kwargs)
    (hsubs : ∀ f ∈ getFuncs b e, ∃ w, f.call [] [] = Except.ok w) :
    emit_after_call b e g a k =
      match g.call a k with
      | Except.error err => (b, [CallRec.mk g.id a k], Except.error err)
      | Except.ok v =>
          (vivify b e,
           CallRec.mk g.id a k ::
             (getFuncs b e).map (fun f => CallRec.mk f.id [] []),
           Except.ok v) := by
  have hfs : getFuncs (vivify b e) e = getFuncs b e := getFuncs_vivify_self b e
  have hrun := runAll_ok (getFuncs b e) [] [] hsubs
  have hemit : emit b e [] [] =
      (vivify b e, (getFuncs b e).map (fun f => CallRec.mk f.id [] []), none) := by
    show (vivify b e, runAll (getFuncs (vivify b e) e) [] []) = _
    rw [hfs, hrun]
  cases hc : g.call a k with
  | error err => simp [emit_after_call, hc]
  | ok v => simp [emit_after_call, hc, hemit]

/-- Claim C4 witness: decorating the succeeding callable `g` with
`emit_after("x")` on a bus where `f` and `g` subscribe to `x` runs the
callable first, then calls each subscriber with no arguments, and
returns the result of the callable. -/
theorem emit_after_runs_then_emits_witness :
    emit_after_call busFG evX subG argsA kwA =
      (vivify busFG evX,
       CallRec.mk subG.id argsA kwA ::
         (getFuncs busFG evX).map (fun f => CallRec.mk f.id [] []),
       Except.ok 20) := by
  have hsubs : ∀ f ∈ getFuncs busFG evX, ∃ w, f.call [] [] = Except.ok w := by
    intro f hf
    have hf2 : f = subF ∨ f = subG := by
      simpa [busFG, getFuncs, lookup] using hf
    rcases hf2 with rfl | rfl
    · exact ⟨10, rfl⟩
    · exact ⟨20, rfl⟩
  have h := emit_after_runs_then_emits busFG evX subG argsA kwA hsubs
  simpa using h

/-- Claim C5: applying the decorator returned by `on(e)` to any callable
`f` registers `f` (by identity) in the subscriber set of `e` — when no
callable of the same identity was present, `f` itself is appended — and
returns a pass-through wrapper that carries the declared name of `f` and
forwards every call to `f`, returning its result. -/
theorem on_registers_and_returns_wrapper (b : EventBus) (e : String)
    (f : Subscriber) (wid : Nat) :
    ((getFuncs (on_apply b e f wid).1 e).any (fun g => g.id == f.id)) = true ∧
    ((getFuncs b e).any (fun g => g.id == f.id) = false →
      getFuncs (on_apply b e f wid).1 e = getFuncs b e ++ [f]) ∧
    (on_apply b e f wid).2.name = f.name ∧
    (∀ a k, (on_apply b e f wid).2.call a k = f.call a k) := by
  have hfs : getFuncs (vivify b e) e = getFuncs b e := getFuncs_vivify_self b e
  have hget : getFuncs (on_apply b e f wid).1 e = setAdd (getFuncs b e) f := by
    show (lookup (setKey (vivify b e).events e
      (setAdd (getFuncs (vivify b e) e) f)) e).getD [] = _
    rw [lookup_setKey_self, hfs]
    rfl
  refine ⟨?_, ?_, rfl, fun a k => rfl⟩
  · rw [hget]
    exact setAdd_mem_id (getFuncs b e) f
  · intro hnew
    rw [hget, setAdd, hnew]
    rfl

/-- Claim C5 witness: subscribing `g` to event `x` on a bus that only
holds `f` appends `g` to the subscriber set of `x`, and the returned wrapper
carries the name and behaviour of `g`. -/
theorem on_registers_and_returns_wrapper_witness :
    getFuncs (on_apply busXY evX subG 9).1 evX = getFuncs busXY evX ++ [subG] ∧
    (on_apply busXY evX subG 9).2.name = subG.name ∧
    (on_apply busXY evX subG 9).2.call argsA kwA = subG.call argsA kwA := by
  have h := on_registers_and_returns_wrapper busXY evX subG 9
  exact ⟨h.2.1 rfl, h.2.2.1, h.2.2.2 argsA kwA⟩

/-- Claim C6: on a well-formed bus, subscribing the same function object
to the same event twice leaves the bus in exactly the state produced by
subscribing it once, and the function appears exactly once (counted by
object identity) in the subscriber set of the event. -/
theorem on_twice_idempotent (b : EventBus) (e : String) (f : Subscriber)
    (w1 w2 : Nat) (hWF : WF b) :
    (on_apply (on_apply b e f w1).1 e f w2).1 = (on_apply b e f w1).1 ∧
    ((getFuncs (on_apply b e f w1).1 e).filter
      (fun g => g.id == f.id)).length = 1 := by
  have hfs : getFuncs (vivify b e) e = getFuncs b e := getFuncs_vivify_self b e
  have hWF1 : WF (vivify b e) := WF_vivify b e hWF
  have hb1 : (on_apply b e f w1).1 =
      EventBus.mk (setKey (vivify b e).events e (setAdd (getFuncs b e) f)) := by
    show EventBus.mk (setKey (vivify b e).events e
      (setAdd (getFuncs (vivify b e) e) f)) = _
    rw [hfs]
  have hlook : lookup (on_apply b e f w1).1.events e =
      some (setAdd (getFuncs b e) f) := by
    rw [hb1]
    exact lookup_setKey_self (vivify b e).events e (setAdd (getFuncs b e) f)
  have hget : getFuncs (on_apply b e f w1).1 e = setAdd (getFuncs b e) f := by
    unfold getFuncs
    rw [hlook]
    rfl
  constructor
  · have hviv : vivify (on_apply b e f w1).1 e = (on_apply b e f w1).1 :=
      vivify_of_some _ e _ hlook
    show EventBus.mk (setKey (vivify (on_apply b e f w1).1 e).events e
      (setAdd (getFuncs (vivify (on_apply b e f w1).1 e) e) f)) = _
    rw [hviv, hget, setAdd_idem]
    have hkeys : ((on_apply b e f w1).1.events.map Prod.fst).Nodup := by
      rw [hb1]
      exact nodupKeys_setKey (vivify b e).events e _ hWF1.1
    rw [setKey_self_eq (on_apply b e f w1).1.events e
      (setAdd (getFuncs b e) f) hkeys hlook]
  · rw [hget]
    exact setAdd_count_one (getFuncs b e) f (getFuncs_nodup b e hWF)

/-- Claim C6 witness: subscribing `g` twice to event `x` equals
subscribing it once, and `g` is registered exactly once. -/
theorem on_twice_idempotent_witness :
    WF busXY ∧
    (on_apply (on_apply busXY evX subG 8).1 evX subG 9).1 =
      (on_apply busXY evX subG 8).1 ∧
    ((getFuncs (on_apply busXY evX subG 8).1 evX).filter
      (fun g => g.id == subG.id)).length = 1 := by
  have hwf : WF busXY := ⟨by decide, by decide⟩
  have h := on_twice_idempotent busXY evX subG 8 9 hwf
  exact ⟨hwf, h.1, h.2⟩

/-- Claim C7: in every well-formed bus state,
`subscribed_event_count()` equals the sum, over every event entry ever
created (including empty auto-vivified ones, which contribute zero), of
the current size of the subscriber set of that entry. -/
theorem subscribed_event_count_sums_sizes (b : EventBus) (hWF : WF b) :
    subscribed_event_count b = (b.events.map (fun p => p.2.length)).sum :=
  subscribed_event_count_eq b hWF.1

/-- Claim C7 witness: a bus with two subscribers on `x` and an empty
vivified entry for `y` counts 2. -/
theorem subscribed_event_count_sums_sizes_witness :
    WF busCnt ∧
    subscribed_event_count busCnt =
      (busCnt.events.map (fun p => p.2.length)).sum ∧
    subscribed_event_count busCnt = 2 := by
  have hwf : WF busCnt := ⟨by decide, by decide⟩
  exact ⟨hwf, subscribed_event_count_sums_sizes busCnt hwf, rfl⟩

/-- Claim C8: on a well-formed bus, `remove_subscriber(e, n)` removes
from the subscriber set of `e` exactly the subscribers whose declared name is
`n` (membership afterwards holds iff it held before and the name
differs), is a silent no-op producing an empty entry when `e` was never
seen, and a subsequent `emit(e)` never invokes a previously-registered
function named `n`. -/
theorem remove_subscriber_removes_named (b : EventBus) (e n : String)
    (a : Args) (k : Kwargs) (hWF : WF b) :
    (∀ f, f ∈ getFuncs (remove_subscriber b e n) e ↔
      (f ∈ getFuncs b e ∧ f.name ≠ n)) ∧
    (lookup b.events e = none →
      lookup (remove_subscriber b e n).events e = some []) ∧
    (∀ r ∈ (emit (remove_subscriber b e n) e a k).2.1,
      ∀ f ∈ getFuncs b e, f.name = n → r.fid ≠ f.id) := by
  have hfs : getFuncs (vivify b e) e = getFuncs b e := getFuncs_vivify_self b e
  have hnd : ((getFuncs b e).map Subscriber.id).Nodup := getFuncs_nodup b e hWF
  have hloop : removeLoop n (getFuncs (vivify b e) e) (getFuncs (vivify b e) e) =
      (getFuncs b e).filter (fun g => !(g.name == n)) := by
    rw [hfs]
    exact removeLoop_self_eq_filter n (getFuncs b e) hnd
  have hlookR : lookup (remove_subscriber b e n).events e =
      some ((getFuncs b e).filter (fun g => !(g.name == n))) := by
    show lookup (setKey (vivify b e).events e
      (removeLoop n (getFuncs (vivify b e) e) (getFuncs (vivify b e) e))) e = _
    rw [hloop, lookup_setKey_self]
  have hgetR : getFuncs (remove_subscriber b e n) e =
      (getFuncs b e).filter (fun g => !(g.name == n)) := by
    unfold getFuncs
    rw [hlookR]
    rfl
  refine ⟨?_, ?_, ?_⟩
  · intro f
    rw [hgetR, List.mem_filter]
    simp
  · intro hmiss
    have hempty : getFuncs b e = [] := by
      unfold getFuncs
      rw [hmiss]
      rfl
    rw [hlookR, hempty]
    rfl
  · intro r hr f hf hfn hcontra
    have hR : getFuncs (vivify (remove_subscriber b e n) e) e =
        (getFuncs b e).filter (fun g => !(g.name == n)) := by
      rw [getFuncs_vivify_self, hgetR]
    have htr : (emit (remove_subscriber b e n) e a k).2.1 =
        (runAll ((getFuncs b e).filter (fun g => !(g.name == n))) a k).1 := by
      show (runAll (getFuncs (vivify (remove_subscriber b e n) e) e) a k).1 = _
      rw [hR]
    rw [htr] at hr
    rcases runAll_fid _ a k r hr with ⟨f2, hf2mem, hf2id⟩
    rw [List.mem_filter] at hf2mem
    have hf2id2 : f2.id = f.id := by rw [← hf2id, hcontra]
    have hff : f2 = f := List.inj_on_of_nodup_map hnd hf2mem.1 hf hf2id2
    rw [hff] at hf2mem
    simp [hfn] at hf2mem

/-- Claim C8 witness: removing the subscriber named `f` from event `x`
keeps `g` and drops `f`; emitting afterwards never calls `f`. -/
theorem remove_subscriber_removes_named_witness :
    WF busFG ∧
    (subF ∈ getFuncs (remove_subscriber busFG evX nameF) evX ↔
      (subF ∈ getFuncs busFG evX ∧ subF.name ≠ nameF)) ∧
    (subG ∈ getFuncs (remove_subscriber busFG evX nameF) evX ↔
      (subG ∈ getFuncs busFG evX ∧ subG.name ≠ nameF)) := by
  have hwf : WF busFG := ⟨by decide, by decide⟩
  have h := remove_subscriber_removes_named busFG evX nameF argsA kwA hwf
  exact ⟨hwf, h.1 subF, h.1 subG⟩

/-- Claim C9: accessing an event name that was never subscribed to never
fails and auto-creates an empty subscriber-set entry: `event_funcs`
(once its lazy sequence is consumed), `event_func_names`, `emit` and
`remove_subscriber` all leave `some []` stored under the name, and the
enumerations are empty. -/
theorem unseen_event_auto_vivifies (b : EventBus) (e : String)
    (a : Args) (k : Kwargs) (n : String) (hmiss : lookup b.events e = none) :
    lookup (event_funcs b e).1.events e = some [] ∧
    (event_funcs b e).2 = [] ∧
    lookup (event_func_names b e).1.events e = some [] ∧
    (event_func_names b e).2 = [] ∧
    lookup (emit b e a k).1.events e = some [] ∧
    lookup (remove_subscriber b e n).events e = some [] := by
  have hempty : getFuncs b e = [] := by
    unfold getFuncs
    rw [hmiss]
    rfl
  have hviv : lookup (vivify b e).events e = some [] := by
    rw [lookup_vivify_self, hempty]
  have hfs : getFuncs (vivify b e) e = [] := by
    rw [getFuncs_vivify_self, hempty]
  refine ⟨hviv, hfs, hviv, ?_, hviv, ?_⟩
  · show (getFuncs (vivify b e) e).map (fun f => f.name) = []
    rw [hfs]
    rfl
  · show lookup (setKey (vivify b e).events e
      (removeLoop n (getFuncs (vivify b e) e) (getFuncs (vivify b e) e))) e = some []
    rw [hfs]
    exact lookup_setKey_self (vivify b e).events e (removeLoop n [] [])

/-- Claim C9 witness: on the empty bus, enumerating the unseen event `x`
raises nothing, yields nothing and creates the empty entry. -/
theorem unseen_event_auto_vivifies_witness :
    lookup busEmpty.events evX = none ∧
    lookup (event_funcs busEmpty evX).1.events evX = some [] ∧
    (event_funcs busEmpty evX).2 = [] := by
  have h := unseen_event_auto_vivifies busEmpty evX argsA kwA nameF rfl
  exact ⟨rfl, h.1, h.2.1⟩

/-- Claim C10: `remove_subscriber(e, n)` leaves the entry stored under
any other event name unchanged — both its membership and its size —
whatever the bus state and subscriber name. -/
theorem remove_subscriber_frames_other_events (b : EventBus)
    (e e2 n : String) (h : e2 ≠ e) :
    lookup (remove_subscriber b e n).events e2 = lookup b.events e2 := by
  show lookup (setKey (vivify b e).events e
    (removeLoop n (getFuncs (vivify b e) e) (getFuncs (vivify b e) e))) e2 = _
  rw [lookup_setKey_ne _ _ _ _ h, lookup_vivify_ne b e e2 h]

/-- Claim C10 witness: removing `g` from event `x` leaves the
entry of event `y` untouched. -/
theorem remove_subscriber_frames_other_events_witness :
    evY ≠ evX ∧
    lookup (remove_subscriber busXY evX nameG).events evY =
      lookup busXY.events evY :=
  ⟨by decide, remove_subscriber_frames_other_events busXY evX evY nameG (by decide)⟩
